import Mathlib

/-!
Verification of the amalgamation script `amalgamate.py`.

The script reads every file matched by a fixed glob pattern, classifies each
line by literal prefix tests, and writes a single output file:

* a line starting with `using` is added to a set of import directives;
* a line starting with `namespace` is dropped;
* a line whose first character is an opening or closing brace is dropped;
* every other line is appended verbatim to the body list.

The output is the inlined license literal (printed with a trailing newline),
the sorted import set, a blank line, the wrapper lines, the body lines and a
closing brace line.

Files are modelled as the list of lines that Python file iteration yields:
each element is one line of text, carrying its trailing newline character,
except possibly the final line of a file, which may lack one.
-/

namespace Amalgamate

/-- Embedding of the startswith test for the import keyword
(amalgamate.py line 19). -/
def isUsing (line : String) : Bool :=
  "using".data.isPrefixOf line.data

/-- Embedding of the startswith test for the namespace keyword
(amalgamate.py line 21). -/
def isNamespaceDecl (line : String) : Bool :=
  "namespace".data.isPrefixOf line.data

/-- Embedding of the startswith tests for an opening or closing brace
(amalgamate.py line 23). -/
def isBraceDelim (line : String) : Bool :=
  ['\x7b'].isPrefixOf line.data || ['\x7d'].isPrefixOf line.data

/-- A line that falls through to the final `else` branch of the classifier
(amalgamate.py line 25): neither an import directive, nor a namespace
declaration, nor a brace-delimiter line. -/
def isBody (line : String) : Bool :=
  !isUsing line && !isNamespaceDecl line && !isBraceDelim line

/-- Embedding of `usings.add(line)` (amalgamate.py line 20).  The Python
`set` is modelled as a duplicate-free list; insertion order is irrelevant to
the observable output because the set is sorted before emission. -/
def addUsing (s : List String) (line : String) : List String :=
  if line ∈ s then s else s ++ [line]

/-- The two accumulators of `main`: `usings` (a set of import-directive
lines) and `codes` (the ordered body list), amalgamate.py lines 11-12. -/
structure Collected where
  usings : List String
  codes : List String

/-- One iteration of the line-classification loop, amalgamate.py
lines 17-26. -/
def step (st : Collected) (line : String) : Collected :=
  if isUsing line then { st with usings := addUsing st.usings line }
  else if isNamespaceDecl line then st
  else if isBraceDelim line then st
  else { st with codes := st.codes ++ [line] }

/-- Processing a single input file: fold the classifier over its lines
(amalgamate.py lines 16-26). -/
def collectFile (st : Collected) (f : List String) : Collected :=
  f.foldl step st

/-- Processing all input files in enumeration order (amalgamate.py
lines 14-26), starting from the empty accumulators. -/
def collect (files : List (List String)) : Collected :=
  files.foldl collectFile ⟨[], []⟩

/-- Lexicographic comparison of character lists by code point, the order
used by Python `sorted` on strings. -/
def lexLe : List Char → List Char → Bool
  | [], _ => true
  | _ :: _, [] => false
  | a :: as, b :: bs => if a = b then lexLe as bs else decide (a < b)

/-- Lexicographic order on strings, the key order of `sorted(usings)`
(amalgamate.py line 44). -/
def strLe (s t : String) : Prop :=
  lexLe s.data t.data = true

instance : DecidableRel strLe := fun s t => by
  unfold strLe
  infer_instance

theorem lexLe_total : ∀ a b : List Char, lexLe a b = true ∨ lexLe b a = true := by
  intro a
  induction a with
  | nil => intro b; left; rfl
  | cons x xs ih =>
    intro b
    cases b with
    | nil => right; rfl
    | cons y ys =>
      by_cases hxy : x = y
      · subst hxy
        rcases ih ys with h | h
        · left; simpa [lexLe] using h
        · right; simpa [lexLe] using h
      · rcases lt_or_gt_of_ne hxy with h | h
        · left; simp [lexLe, hxy, h]
        · right; simp [lexLe, Ne.symm hxy, h]

theorem lexLe_trans :
    ∀ a b c : List Char, lexLe a b = true → lexLe b c = true → lexLe a c = true := by
  intro a
  induction a with
  | nil => intro b c _ _; rfl
  | cons x xs ih =>
    intro b c h1 h2
    cases b with
    | nil => simp [lexLe] at h1
    | cons y ys =>
      cases c with
      | nil => simp [lexLe] at h2
      | cons z zs =>
        by_cases hxy : x = y
        · subst hxy
          by_cases hyz : x = z
          · subst hyz
            simp only [lexLe, if_pos rfl] at h1 h2 ⊢
            exact ih ys zs h1 h2
          · simp only [lexLe, if_pos rfl] at h1
            simpa [lexLe, hyz] using h2
        · simp only [lexLe, if_neg hxy, decide_eq_true_eq] at h1
          by_cases hyz : y = z
          · subst hyz
            simp [lexLe, hxy, h1]
          · simp only [lexLe, if_neg hyz, decide_eq_true_eq] at h2
            have hxz : x < z := lt_trans h1 h2
            have hne : x ≠ z := ne_of_lt hxz
            simp [lexLe, hne, hxz]

theorem lexLe_antisymm :
    ∀ a b : List Char, lexLe a b = true → lexLe b a = true → a = b := by
  intro a
  induction a with
  | nil =>
    intro b _ h2
    cases b with
    | nil => rfl
    | cons y ys => simp [lexLe] at h2
  | cons x xs ih =>
    intro b h1 h2
    cases b with
    | nil => simp [lexLe] at h1
    | cons y ys =>
      by_cases hxy : x = y
      · subst hxy
        simp only [lexLe, if_pos rfl] at h1 h2
        rw [ih ys h1 h2]
      · simp only [lexLe, if_neg hxy, decide_eq_true_eq] at h1
        simp only [lexLe, if_neg (Ne.symm hxy), decide_eq_true_eq] at h2
        exact absurd h2 (lt_asymm h1)

instance : IsTotal String strLe :=
  ⟨fun a b => lexLe_total a.data b.data⟩

instance : IsTrans String strLe :=
  ⟨fun a b c h1 h2 => lexLe_trans a.data b.data c.data h1 h2⟩

instance : IsAntisymm String strLe :=
  ⟨fun a b h1 h2 => by
    cases a with
    | mk da =>
      cases b with
      | mk db => exact congrArg String.mk (lexLe_antisymm da db h1 h2)⟩

/-- The import lines in the order they are emitted: `sorted(usings)`
(amalgamate.py line 44). -/
def emittedImports (files : List (List String)) : List String :=
  List.insertionSort strLe (collect files).usings

theorem step_codes (st : Collected) (line : String) :
    (step st line).codes = if isBody line then st.codes ++ [line] else st.codes := by
  unfold step isBody
  cases h1 : isUsing line <;> cases h2 : isNamespaceDecl line <;>
    cases h3 : isBraceDelim line <;> simp [h1, h2, h3]

theorem step_usings (st : Collected) (line : String) :
    (step st line).usings = if isUsing line then addUsing st.usings line else st.usings := by
  unfold step
  cases h1 : isUsing line <;> cases h2 : isNamespaceDecl line <;>
    cases h3 : isBraceDelim line <;> simp [h1, h2, h3]

theorem collectFile_codes (st : Collected) (f : List String) :
    (collectFile st f).codes = st.codes ++ f.filter isBody := by
  induction f generalizing st with
  | nil => simp [collectFile]
  | cons l f ih =>
    have hstep : collectFile st (l :: f) = collectFile (step st l) f := rfl
    rw [hstep, ih]
    rw [step_codes]
    by_cases h : isBody l = true
    · simp [h, List.filter_cons]
    · simp only [Bool.not_eq_true] at h
      simp [h, List.filter_cons]

theorem collectFile_usings (st : Collected) (f : List String) :
    (collectFile st f).usings = (f.filter isUsing).foldl addUsing st.usings := by
  induction f generalizing st with
  | nil => simp [collectFile]
  | cons l f ih =>
    have hstep : collectFile st (l :: f) = collectFile (step st l) f := rfl
    rw [hstep, ih]
    rw [step_usings]
    by_cases h : isUsing l = true
    · simp [h, List.filter_cons]
    · simp only [Bool.not_eq_true] at h
      simp [h, List.filter_cons]

theorem foldl_collectFile_codes (files : List (List String)) (st : Collected) :
    (files.foldl collectFile st).codes
      = st.codes ++ (files.map (fun f => f.filter isBody)).flatten := by
  induction files generalizing st with
  | nil => simp
  | cons f fs ih =>
    rw [List.foldl_cons, ih, collectFile_codes]
    simp

theorem foldl_collectFile_usings (files : List (List String)) (st : Collected) :
    (files.foldl collectFile st).usings
      = ((files.map (fun f => f.filter isUsing)).flatten).foldl addUsing st.usings := by
  induction files generalizing st with
  | nil => simp
  | cons f fs ih =>
    rw [List.foldl_cons, ih, collectFile_usings]
    simp [List.foldl_append]

theorem mem_addUsing (s : List String) (x line : String) :
    x ∈ addUsing s line ↔ x ∈ s ∨ x = line := by
  unfold addUsing
  by_cases h : line ∈ s
  · simp only [if_pos h]
    constructor
    · exact fun hx => Or.inl hx
    · rintro (hx | rfl)
      · exact hx
      · exact h
  · simp [if_neg h]

theorem mem_foldl_addUsing (ls : List String) (init : List String) (x : String) :
    x ∈ ls.foldl addUsing init ↔ x ∈ init ∨ x ∈ ls := by
  induction ls generalizing init with
  | nil => simp
  | cons l ls ih =>
    rw [List.foldl_cons, ih, mem_addUsing]
    simp only [List.mem_cons]
    tauto

theorem nodup_addUsing (s : List String) (line : String) (h : s.Nodup) :
    (addUsing s line).Nodup := by
  unfold addUsing
  by_cases hm : line ∈ s
  · simpa [if_pos hm] using h
  · simp [if_neg hm, List.nodup_append, h, hm]

theorem nodup_foldl_addUsing (ls : List String) (init : List String) (h : init.Nodup) :
    (ls.foldl addUsing init).Nodup := by
  induction ls generalizing init with
  | nil => simpa
  | cons l ls ih => exact ih _ (nodup_addUsing _ _ h)

/-- The body list collected by `main` is exactly the concatenation, in file
enumeration order, of the lines of each file that survive the classifier. -/
theorem collect_codes (files : List (List String)) :
    (collect files).codes = (files.map (fun f => f.filter isBody)).flatten := by
  have h := foldl_collectFile_codes files ⟨[], []⟩
  simpa [collect] using h

/-- Membership in the collected import set: exactly the lines of some input
file that start with the import keyword. -/
theorem collect_usings_mem (files : List (List String)) (x : String) :
    x ∈ (collect files).usings ↔ (isUsing x = true ∧ x ∈ files.flatten) := by
  have h := foldl_collectFile_usings files ⟨[], []⟩
  have h2 : (collect files).usings
      = ((files.map (fun f => f.filter isUsing)).flatten).foldl addUsing [] := by
    simpa [collect] using h
  rw [h2, mem_foldl_addUsing]
  simp only [List.not_mem_nil, false_or, List.mem_flatten, List.mem_map]
  constructor
  · rintro ⟨l, ⟨f, hf, rfl⟩, hx⟩
    rw [List.mem_filter] at hx
    exact ⟨hx.2, f, hf, hx.1⟩
  · rintro ⟨hu, f, hf, hx⟩
    exact ⟨f.filter isUsing, ⟨f, hf, rfl⟩, by rw [List.mem_filter]; exact ⟨hx, hu⟩⟩

/-- The collected import set holds no duplicates. -/
theorem collect_usings_nodup (files : List (List String)) :
    (collect files).usings.Nodup := by
  have h := foldl_collectFile_usings files ⟨[], []⟩
  have h2 : (collect files).usings
      = ((files.map (fun f => f.filter isUsing)).flatten).foldl addUsing [] := by
    simpa [collect] using h
  rw [h2]
  exact nodup_foldl_addUsing _ _ (by simp)

/-- The triple-quoted license literal of amalgamate.py lines 30-41, exactly
as written in the source: it opens with a comment, ends with the comment
close line followed by one blank line (the literal ends in two newline
characters). -/
def licenseLiteral : String :=
  "/*\n\nDocopt.NET (https://github.com/docopt/docopt.net)\n\nCopyright (c) 2012 Vladimir Keleshev, <vladimir@keleshev.com>\n                   Dinh Doan Van Bien, <dinh@doanvanbien.com>\n\nLicensed under MIT (https://github.com/docopt/docopt.net/blob/master/LICENSE-MIT)\n\n*/\n\n"

/-- Embedding of `print(s, file=fp)`: writes the text plus one newline. -/
def printLine (s : String) : String :=
  s ++ "\n"

/-- Embedding of a loop of print calls with an empty end argument over a
list of lines: writes each element verbatim, adding nothing. -/
def writeAll (l : List String) : String :=
  l.foldl (· ++ ·) ""

/-- The full text written to the output file by `main` (amalgamate.py
lines 28-53): license literal print, the sorted import set written
verbatim, an empty print, the two wrapper-open prints, the body lines
written verbatim, and the wrapper-close print. -/
def output (files : List (List String)) : String :=
  printLine licenseLiteral
    ++ writeAll (emittedImports files)
    ++ printLine ""
    ++ printLine "namespace DocoptNet"
    ++ printLine "\x7b"
    ++ writeAll ((collect files).codes)
    ++ printLine "\x7d"

/-- Model of the I/O behaviour of a run of `main`.  The input files are
the argument; the boolean records whether the file named by the `LICENSE`
constant (amalgamate.py line 5) exists.  `main` opens only the matched
input files (for reading) and the output path (for writing); the `LICENSE`
constant is never passed to `open`, so the existence of that file cannot
influence the run, which always writes the complete output. -/
def run (_licenseFileExists : Bool) (files : List (List String)) : Option String :=
  some (output files)

/-- Embedding of the `utf-8-sig` decoding of `open` (amalgamate.py
line 16): a single leading byte-order marker, when present, is removed
before the text is split into lines. -/
def stripBOM : List Char → List Char
  | [] => []
  | c :: cs => if c = '\uFEFF' then cs else c :: cs

/-- Splitting text into lines the way Python file iteration does: each line
keeps its trailing newline character, and a final fragment without a
newline is a line of its own. -/
def splitLines : List Char → List (List Char)
  | [] => []
  | c :: cs =>
    if c = '\n' then ['\n'] :: splitLines cs
    else
      match splitLines cs with
      | [] => [[c]]
      | l :: ls => (c :: l) :: ls

/-- Reading one input file (amalgamate.py lines 16-17): decode the marker,
then iterate over the lines. -/
def readFileLines (text : String) : List String :=
  (splitLines (stripBOM text.data)).map String.mk

/-- The output of a run on raw file texts. -/
def outputOfTexts (texts : List String) : String :=
  output (texts.map readFileLines)

/-- A character list that is one complete text line: no interior newline,
and a final newline terminator. -/
def TermLineData (l : List Char) : Prop :=
  '\n' ∉ l.dropLast ∧ l.getLast? = some '\n'

/-- A string that is one complete, newline-terminated text line. -/
def TermLine (s : String) : Prop :=
  TermLineData s.data

instance (l : List Char) : Decidable (TermLineData l) := by
  unfold TermLineData
  infer_instance

instance (s : String) : Decidable (TermLine s) := by
  unfold TermLine
  infer_instance

/-- The lines of the output text. -/
def outputLines (files : List (List String)) : List (List Char) :=
  splitLines (output files).data

/-- Test on the first character of a line. -/
def headIs (c : Char) (l : List Char) : Bool :=
  l.head? == some c

theorem foldl_append_data (l : List String) (s : String) :
    (l.foldl (· ++ ·) s).data = s.data ++ (l.map String.data).flatten := by
  induction l generalizing s with
  | nil => simp
  | cons a l ih =>
    rw [List.foldl_cons, ih]
    simp

theorem writeAll_data (l : List String) :
    (writeAll l).data = (l.map String.data).flatten := by
  have h := foldl_append_data l ""
  simpa [writeAll] using h

theorem splitLines_newline (b : List Char) :
    splitLines ('\n' :: b) = ['\n'] :: splitLines b := by
  simp [splitLines]

theorem splitLines_cons_ne (c : Char) (cs : List Char) (hc : c ≠ '\n') :
    splitLines (c :: cs)
      = match splitLines cs with
        | [] => [[c]]
        | l :: ls => (c :: l) :: ls := by
  simp [splitLines, hc]

theorem splitLines_ne_nil (cs : List Char) (h : cs ≠ []) : splitLines cs ≠ [] := by
  cases cs with
  | nil => exact absurd rfl h
  | cons c cs =>
    by_cases hc : c = '\n'
    · subst hc
      rw [splitLines_newline]
      simp
    · rw [splitLines_cons_ne c cs hc]
      cases hs : splitLines cs <;> simp

theorem splitLines_single_term (l : List Char) (h1 : '\n' ∉ l.dropLast)
    (h2 : l.getLast? = some '\n') : splitLines l = [l] := by
  induction l with
  | nil => simp at h2
  | cons c l ih =>
    cases l with
    | nil =>
      have hc : c = '\n' := by simpa using h2
      subst hc
      rw [splitLines_newline]
      simp [splitLines]
    | cons d l2 =>
      have hc : c ≠ '\n' := by
        intro hc
        apply h1
        rw [hc] at *
        simp [List.dropLast_cons₂]
      have hd1 : '\n' ∉ (d :: l2).dropLast := by
        intro hmem
        exact h1 (by simp [List.dropLast_cons₂, hmem])
      have hd2 : (d :: l2).getLast? = some '\n' := by
        rwa [List.getLast?_cons_cons] at h2
      rw [splitLines_cons_ne c _ hc, ih hd1 hd2]

theorem splitLines_single_noNL (l : List Char) (h1 : '\n' ∉ l) (h2 : l ≠ []) :
    splitLines l = [l] := by
  induction l with
  | nil => exact absurd rfl h2
  | cons c l ih =>
    have hc : c ≠ '\n' := by
      intro hc
      exact h1 (by rw [hc]; exact List.mem_cons_self _ _)
    cases l with
    | nil =>
      rw [splitLines_cons_ne c _ hc]
      rfl
    | cons d l2 =>
      have h1t : '\n' ∉ (d :: l2) := fun hm => h1 (List.mem_cons_of_mem _ hm)
      rw [splitLines_cons_ne c _ hc, ih h1t (by simp)]

theorem flatten_splitLines (cs : List Char) : (splitLines cs).flatten = cs := by
  induction cs with
  | nil => rfl
  | cons c cs ih =>
    by_cases hc : c = '\n'
    · subst hc
      rw [splitLines_newline]
      simp [ih]
    · rw [splitLines_cons_ne c cs hc]
      cases hs : splitLines cs with
      | nil =>
        rw [hs] at ih
        simp at ih
        simp [ih]
      | cons l ls =>
        rw [hs] at ih
        simp only [List.flatten_cons] at ih
        simp [List.flatten_cons, ih]

theorem splitLines_append (a b : List Char) (h : a.getLast? = some '\n') :
    splitLines (a ++ b) = splitLines a ++ splitLines b := by
  induction a with
  | nil => simp at h
  | cons c a ih =>
    cases a with
    | nil =>
      have hc : c = '\n' := by simpa using h
      subst hc
      rw [List.cons_append, List.nil_append, splitLines_newline, splitLines_newline]
      simp [splitLines]
    | cons d a2 =>
      have h2 : (d :: a2).getLast? = some '\n' := by
        rwa [List.getLast?_cons_cons] at h
      by_cases hc : c = '\n'
      · subst hc
        rw [List.cons_append, splitLines_newline, splitLines_newline, ih h2]
        simp
      · have hne : splitLines (d :: a2) ≠ [] := splitLines_ne_nil _ (by simp)
        cases ht : splitLines (d :: a2) with
        | nil => exact absurd ht hne
        | cons m ms =>
          rw [List.cons_append, splitLines_cons_ne c _ hc, splitLines_cons_ne c _ hc]
          rw [ih h2, ht, List.cons_append]
          rfl

theorem TermLineData.ne_nil {l : List Char} (h : TermLineData l) : l ≠ [] := by
  intro hl
  rw [hl] at h
  simp [TermLineData] at h

theorem splitLines_flatten_append (ls : List (List Char)) (b : List Char)
    (h : ∀ l ∈ ls, TermLineData l) :
    splitLines (ls.flatten ++ b) = ls ++ splitLines b := by
  induction ls with
  | nil => simp
  | cons l ls ih =>
    have hl := h l (List.mem_cons_self _ _)
    rw [List.flatten_cons, List.append_assoc, splitLines_append l _ hl.2]
    rw [splitLines_single_term l hl.1 hl.2]
    rw [ih (fun m hm => h m (List.mem_cons_of_mem _ hm))]
    rfl

theorem splitLines_flatten (ls : List (List Char)) (h : ∀ l ∈ ls, TermLineData l) :
    splitLines ls.flatten = ls := by
  have h2 := splitLines_flatten_append ls [] h
  simpa [splitLines] using h2

theorem output_data (files : List (List String)) :
    (output files).data
      = (printLine licenseLiteral).data
        ++ ((emittedImports files).map String.data).flatten
        ++ (printLine "").data
        ++ (printLine "namespace DocoptNet").data
        ++ (printLine "\x7b").data
        ++ ((collect files).codes.map String.data).flatten
        ++ (printLine "\x7d").data := by
  simp [output, writeAll_data, String.data_append]

theorem mem_collect_codes_mem_input (files : List (List String)) (l : String)
    (h : l ∈ (collect files).codes) : ∃ f ∈ files, l ∈ f := by
  rw [collect_codes] at h
  rw [List.mem_flatten] at h
  obtain ⟨m, hm, hl⟩ := h
  obtain ⟨f, hf, rfl⟩ := List.mem_map.1 hm
  exact ⟨f, hf, (List.mem_filter.1 hl).1⟩

theorem mem_collect_codes_isBody (files : List (List String)) (l : String)
    (h : l ∈ (collect files).codes) : isBody l = true := by
  rw [collect_codes] at h
  rw [List.mem_flatten] at h
  obtain ⟨m, hm, hl⟩ := h
  obtain ⟨f, hf, rfl⟩ := List.mem_map.1 hm
  exact (List.mem_filter.1 hl).2

theorem mem_emittedImports (files : List (List String)) (l : String) :
    l ∈ emittedImports files ↔ l ∈ (collect files).usings := by
  unfold emittedImports
  exact List.mem_insertionSort strLe

theorem outputLines_decomp (files : List (List String))
    (hu : ∀ l ∈ (collect files).usings, TermLine l)
    (hc : ∀ l ∈ (collect files).codes, TermLine l) :
    outputLines files
      = splitLines (printLine licenseLiteral).data
        ++ ((emittedImports files).map String.data
        ++ ([['\n']]
        ++ ([(printLine "namespace DocoptNet").data]
        ++ ([['\x7b', '\n']]
        ++ ((collect files).codes.map String.data
        ++ [['\x7d', '\n']]))))) := by
  have himp : ∀ l ∈ (emittedImports files).map String.data, TermLineData l := by
    intro l hl
    obtain ⟨s, hs, rfl⟩ := List.mem_map.1 hl
    exact hu s ((mem_emittedImports files s).1 hs)
  have hcod : ∀ l ∈ (collect files).codes.map String.data, TermLineData l := by
    intro l hl
    obtain ⟨s, hs, rfl⟩ := List.mem_map.1 hl
    exact hc s hs
  have e1 : (printLine "").data = ['\n'] := by decide
  have e2 : (printLine "\x7b").data = ['\x7b', '\n'] := by decide
  have e3 : (printLine "\x7d").data = ['\x7d', '\n'] := by decide
  have hL : (printLine licenseLiteral).data.getLast? = some '\n' := by decide
  have hN : (printLine "namespace DocoptNet").data.getLast? = some '\n' := by decide
  have sN : splitLines (printLine "namespace DocoptNet").data
      = [(printLine "namespace DocoptNet").data] := by decide
  unfold outputLines
  rw [output_data, e1, e2, e3]
  simp only [List.append_assoc]
  rw [splitLines_append _ _ hL]
  rw [splitLines_flatten_append _ _ himp]
  rw [List.singleton_append, splitLines_newline]
  rw [splitLines_append _ _ hN, sN]
  rw [splitLines_append ['\x7b', '\n'] _ (by decide)]
  rw [splitLines_flatten_append _ _ hcod]
  rw [show splitLines ['\x7b', '\n'] = [['\x7b', '\n']] from by decide]
  rw [show splitLines ['\x7d', '\n'] = [['\x7d', '\n']] from by decide]
  simp

/-- Claim C1: an import-directive line (raw text, trailing terminator
included) that occurs in at least one input file appears exactly once among
the import lines emitted to the output. -/
theorem claim_c1 (files : List (List String)) (line : String)
    (h1 : isUsing line = true) (h2 : line ∈ files.flatten) :
    List.count line (emittedImports files) = 1 := by
  have hperm : List.Perm (emittedImports files) (collect files).usings :=
    List.perm_insertionSort strLe _
  rw [hperm.count_eq]
  exact List.count_eq_one_of_mem (collect_usings_nodup files)
    ((collect_usings_mem files line).2 ⟨h1, h2⟩)

theorem claim_c1_witness :
    isUsing "using B;\n" = true
      ∧ "using B;\n" ∈ ([["using B;\n"], ["using A;\n", "using B;\n"]] : List (List String)).flatten
      ∧ List.count "using B;\n" (emittedImports [["using B;\n"], ["using A;\n", "using B;\n"]]) = 1 :=
  ⟨by decide, by decide, claim_c1 _ _ (by decide) (by decide)⟩

/-- Claim C2: the body of the output is exactly the concatenation, in file
enumeration order and line order within each file, of the input lines that
do not start with the import keyword, do not start with the namespace
keyword, and whose first character is not a brace; in particular each such
occurrence appears exactly once, in file-then-line order. -/
theorem claim_c2 (files : List (List String)) :
    (collect files).codes = (files.map (fun f => f.filter isBody)).flatten :=
  collect_codes files

/-- Claim C6: the deduplicated import lines are emitted in lexicographic
order of their raw text: the emitted list is sorted under the code-point
lexicographic order and is a permutation of the collected import set. -/
theorem claim_c6 (files : List (List String)) :
    List.Sorted strLe (emittedImports files)
      ∧ List.Perm (emittedImports files) (collect files).usings :=
  ⟨List.sorted_insertionSort strLe _, List.perm_insertionSort strLe _⟩

/-- Claim C7: the run is deterministic: two runs over the same input files
in the same enumeration order produce byte-identical output text. -/
theorem claim_c7 (files1 files2 : List (List String)) (h : files1 = files2) :
    output files1 = output files2 :=
  congrArg output h

theorem claim_c7_witness :
    output [["using A;\n", "class X\n"]] = output [["using A;\n", "class X\n"]] :=
  claim_c7 _ _ rfl

/-- Claim C9: the emitted import block is invariant under permutation of
the input-file enumeration order; only the body depends on that order. -/
theorem claim_c9 (files1 files2 : List (List String))
    (h : List.Perm files1 files2) :
    emittedImports files1 = emittedImports files2 := by
  have hmem : ∀ a : String, a ∈ files1.flatten ↔ a ∈ files2.flatten := by
    intro a
    simp only [List.mem_flatten]
    constructor
    · rintro ⟨f, hf, ha⟩
      exact ⟨f, h.mem_iff.1 hf, ha⟩
    · rintro ⟨f, hf, ha⟩
      exact ⟨f, h.mem_iff.2 hf, ha⟩
  have hu : List.Perm (collect files1).usings (collect files2).usings := by
    rw [List.perm_ext_iff_of_nodup (collect_usings_nodup files1)
      (collect_usings_nodup files2)]
    intro a
    rw [collect_usings_mem, collect_usings_mem, hmem a]
  exact List.eq_of_perm_of_sorted
    (((List.perm_insertionSort strLe _).trans hu).trans
      (List.perm_insertionSort strLe _).symm)
    (List.sorted_insertionSort strLe _) (List.sorted_insertionSort strLe _)

theorem claim_c9_witness :
    List.Perm ([["using B;\n"], ["using A;\n"]] : List (List String))
        [["using A;\n"], ["using B;\n"]]
      ∧ emittedImports [["using B;\n"], ["using A;\n"]]
        = emittedImports [["using A;\n"], ["using B;\n"]] :=
  ⟨List.Perm.swap _ _ _, claim_c9 _ _ (List.Perm.swap _ _ _)⟩

theorem string_eq_of_data {a b : String} (h : a.data = b.data) : a = b := by
  cases a with
  | mk da =>
    cases b with
    | mk db => exact congrArg String.mk h

/-- The license comment block proper: the literal text from the comment
open line through the comment close line.  The source literal
`licenseLiteral` is this block followed by one extra blank line. -/
def licenseBlock : String :=
  "/*\n\nDocopt.NET (https://github.com/docopt/docopt.net)\n\nCopyright (c) 2012 Vladimir Keleshev, <vladimir@keleshev.com>\n                   Dinh Doan Van Bien, <dinh@doanvanbien.com>\n\nLicensed under MIT (https://github.com/docopt/docopt.net/blob/master/LICENSE-MIT)\n\n*/\n"

/-- Output layout asserted by claim C3, following the claim wording: the
license block, one blank separator line, the deduplicated imports, one
blank separator line, the wrapper-open declaration, the body lines, the
wrapper-close line. -/
def claimC3Output (files : List (List String)) : String :=
  licenseBlock ++ "\n"
    ++ writeAll (emittedImports files) ++ "\n"
    ++ "namespace DocoptNet\n" ++ "\x7b\n"
    ++ writeAll ((collect files).codes) ++ "\x7d\n"

/-- Output layout as amended for claim C3: identical to the claimed layout
except that two blank lines, not one, stand between the license block and
the imports, because the inlined license literal itself ends with a blank
line and the print statement adds the final newline. -/
def amendedC3Output (files : List (List String)) : String :=
  licenseBlock ++ "\n\n"
    ++ writeAll (emittedImports files) ++ "\n"
    ++ "namespace DocoptNet\n" ++ "\x7b\n"
    ++ writeAll ((collect files).codes) ++ "\x7d\n"

set_option maxRecDepth 8192 in
/-- Claim C3 counterexample: already on an empty input set the output text
differs from the layout the claim asserts (the license block is followed
by two blank lines, not one). -/
theorem claim_c3_counterexample : ¬ output [] = claimC3Output [] := by decide

set_option maxRecDepth 8192 in
theorem licensePrint_eq : printLine licenseLiteral = licenseBlock ++ "\n\n" := by decide

/-- Claim C3 as amended: the output is exactly the concatenation of the
license block, two blank separator lines, the deduplicated imports, one
blank separator line, the wrapper-open lines, the collected body lines and
the wrapper-close line. -/
theorem claim_c3_amended (files : List (List String)) :
    output files = amendedC3Output files := by
  unfold output amendedC3Output
  rw [licensePrint_eq]
  rw [show printLine "" = "\n" from by decide]
  rw [show printLine "namespace DocoptNet" = "namespace DocoptNet\n" from by decide]
  rw [show printLine "\x7b" = "\x7b\n" from by decide]
  rw [show printLine "\x7d" = "\x7d\n" from by decide]

/-- Claim C4 counterexample: with the configured license file absent, the
run does not fail: it still produces the full output, because `main` never
opens the path stored in the `LICENSE` constant (the license text is an
inlined literal). -/
theorem claim_c4_counterexample : ¬ run false [] = none := by
  simp [run]

/-- Claim C4 as amended: the existence of the file named by the `LICENSE`
constant has no effect on the run; the output is written in full in either
case. -/
theorem claim_c4_amended (licenseFileExists : Bool) (files : List (List String)) :
    run licenseFileExists files = some (output files) :=
  rfl

theorem isUsing_head (s : String) (h : isUsing s = true) : s.data.head? = some 'u' := by
  unfold isUsing at h
  cases hd : s.data with
  | nil => rw [hd] at h; simp [List.isPrefixOf] at h
  | cons c cs =>
    rw [hd] at h
    simp only [List.isPrefixOf, Bool.and_eq_true, beq_iff_eq] at h
    rw [h.1]
    simp

theorem isBody_head_not_brace (s : String) (hb : isBody s = true) (c : Char)
    (hc : s.data.head? = some c) : c ≠ '\x7b' ∧ c ≠ '\x7d' := by
  unfold isBody at hb
  simp only [Bool.and_eq_true, Bool.not_eq_true'] at hb
  have hbr := hb.2
  unfold isBraceDelim at hbr
  rw [Bool.or_eq_false_iff] at hbr
  cases hd : s.data with
  | nil => rw [hd] at hc; simp at hc
  | cons d cs =>
    rw [hd] at hc
    simp only [List.head?_cons, Option.some_inj] at hc
    subst hc
    rw [hd] at hbr
    constructor
    · intro hEq
      subst hEq
      have := hbr.1
      simp [List.isPrefixOf] at this
    · intro hEq
      subst hEq
      have := hbr.2
      simp [List.isPrefixOf] at this

set_option maxRecDepth 8192 in
/-- Claim C5 counterexample: a single input file whose only line is a body
line with no trailing newline.  The non-terminated body line is written
verbatim and merges with the wrapper-close print on one output line, so no
output line has a closing brace as first character. -/
theorem claim_c5_counterexample :
    ¬ (List.countP (headIs '\x7b') (outputLines [["class A \x7b\x7d"]]) = 1
      ∧ List.countP (headIs '\x7d') (outputLines [["class A \x7b\x7d"]]) = 1) := by
  decide

/-- Claim C5 as amended: provided every input line carries its newline
terminator (in particular whenever every input file ends with a newline),
the output text has exactly one line whose first character is an opening
brace and exactly one line whose first character is a closing brace. -/
theorem claim_c5_amended (files : List (List String))
    (h : ∀ f ∈ files, ∀ l ∈ f, TermLine l) :
    List.countP (headIs '\x7b') (outputLines files) = 1
      ∧ List.countP (headIs '\x7d') (outputLines files) = 1 := by
  have hu : ∀ l ∈ (collect files).usings, TermLine l := by
    intro l hl
    obtain ⟨f, hf, hlf⟩ := List.mem_flatten.1 ((collect_usings_mem files l).1 hl).2
    exact h f hf l hlf
  have hc : ∀ l ∈ (collect files).codes, TermLine l := by
    intro l hl
    obtain ⟨f, hf, hlf⟩ := mem_collect_codes_mem_input files l hl
    exact h f hf l hlf
  have himpz : ∀ c : Char, c ≠ 'u' →
      List.countP (headIs c) ((emittedImports files).map String.data) = 0 := by
    intro c hcu
    rw [List.countP_eq_zero]
    intro l hl
    obtain ⟨s, hs, rfl⟩ := List.mem_map.1 hl
    have husing := ((collect_usings_mem files s).1 ((mem_emittedImports files s).1 hs)).1
    have hh := isUsing_head s husing
    simp [headIs, hh, Ne.symm hcu]
  have hcodz : ∀ c : Char, c = '\x7b' ∨ c = '\x7d' →
      List.countP (headIs c) ((collect files).codes.map String.data) = 0 := by
    intro c hcc
    rw [List.countP_eq_zero]
    intro l hl
    obtain ⟨s, hs, rfl⟩ := List.mem_map.1 hl
    have hbody := mem_collect_codes_isBody files s hs
    cases hd : s.data with
    | nil =>
      exact absurd hd (hc s hs).ne_nil
    | cons d cs =>
      have hdc : s.data.head? = some d := by rw [hd]; rfl
      have hnb := isBody_head_not_brace s hbody d hdc
      rcases hcc with rfl | rfl
      · simp [headIs, hd, hnb.1]
      · simp [headIs, hd, hnb.2]
  rw [outputLines_decomp files hu hc]
  simp only [List.countP_append]
  rw [himpz '\x7b' (by decide), himpz '\x7d' (by decide)]
  rw [hcodz '\x7b' (Or.inl rfl), hcodz '\x7d' (Or.inr rfl)]
  constructor
  · rw [show List.countP (headIs '\x7b') (splitLines (printLine licenseLiteral).data) = 0
        from by decide]
    rw [show List.countP (headIs '\x7b') [['\n']] = 0 from by decide]
    rw [show List.countP (headIs '\x7b') [(printLine "namespace DocoptNet").data] = 0
        from by decide]
    rw [show List.countP (headIs '\x7b') [['\x7b', '\n']] = 1 from by decide]
    rw [show List.countP (headIs '\x7b') [['\x7d', '\n']] = 0 from by decide]
  · rw [show List.countP (headIs '\x7d') (splitLines (printLine licenseLiteral).data) = 0
        from by decide]
    rw [show List.countP (headIs '\x7d') [['\n']] = 0 from by decide]
    rw [show List.countP (headIs '\x7d') [(printLine "namespace DocoptNet").data] = 0
        from by decide]
    rw [show List.countP (headIs '\x7d') [['\x7b', '\n']] = 0 from by decide]
    rw [show List.countP (headIs '\x7d') [['\x7d', '\n']] = 1 from by decide]

theorem claim_c5_witness :
    (∀ f ∈ ([["using A;\n", "class B\n"]] : List (List String)), ∀ l ∈ f, TermLine l)
      ∧ List.countP (headIs '\x7b') (outputLines [["using A;\n", "class B\n"]]) = 1
      ∧ List.countP (headIs '\x7d') (outputLines [["using A;\n", "class B\n"]]) = 1 :=
  ⟨by decide, claim_c5_amended _ (by decide)⟩

theorem mem_readFileLines_subset (t : String) (l : String) (hl : l ∈ readFileLines t) :
    ∀ c ∈ l.data, c ∈ stripBOM t.data := by
  intro c hc
  unfold readFileLines at hl
  obtain ⟨m, hm, rfl⟩ := List.mem_map.1 hl
  have hflat : c ∈ (splitLines (stripBOM t.data)).flatten :=
    List.mem_flatten.2 ⟨m, hm, hc⟩
  rwa [flatten_splitLines] at hflat

set_option maxRecDepth 8192 in
/-- Claim C8: the byte-order marker is stripped during reading.  Under the
hypothesis that the marker character occurs in each input text at most as
its leading character (which the decoder removes), no collected import or
body line contains the marker character and the output text contains no
marker character. -/
theorem claim_c8 (texts : List String)
    (h : ∀ t ∈ texts, '\uFEFF' ∉ stripBOM t.data) :
    (∀ l ∈ (collect (texts.map readFileLines)).usings, '\uFEFF' ∉ l.data)
      ∧ (∀ l ∈ (collect (texts.map readFileLines)).codes, '\uFEFF' ∉ l.data)
      ∧ '\uFEFF' ∉ (outputOfTexts texts).data := by
  have hline : ∀ l : String, l ∈ (texts.map readFileLines).flatten → '\uFEFF' ∉ l.data := by
    intro l hl hcin
    obtain ⟨f, hf, hlf⟩ := List.mem_flatten.1 hl
    obtain ⟨t, ht, rfl⟩ := List.mem_map.1 hf
    exact h t ht (mem_readFileLines_subset t l hlf '\uFEFF' hcin)
  have hus : ∀ l ∈ (collect (texts.map readFileLines)).usings, '\uFEFF' ∉ l.data :=
    fun l hl => hline l ((collect_usings_mem _ l).1 hl).2
  have hcod : ∀ l ∈ (collect (texts.map readFileLines)).codes, '\uFEFF' ∉ l.data := by
    intro l hl
    obtain ⟨f, hf, hlf⟩ := mem_collect_codes_mem_input _ l hl
    exact hline l (List.mem_flatten.2 ⟨f, hf, hlf⟩)
  refine ⟨hus, hcod, ?_⟩
  intro hcin
  rw [outputOfTexts, output_data] at hcin
  simp only [List.mem_append] at hcin
  rcases hcin with ((((((h1 | h2) | h3) | h4) | h5) | h6) | h7)
  · exact absurd h1 (by decide)
  · obtain ⟨ld, hld, hcl⟩ := List.mem_flatten.1 h2
    obtain ⟨s, hs, rfl⟩ := List.mem_map.1 hld
    exact hus s ((mem_emittedImports _ s).1 hs) hcl
  · exact absurd h3 (by decide)
  · exact absurd h4 (by decide)
  · exact absurd h5 (by decide)
  · obtain ⟨ld, hld, hcl⟩ := List.mem_flatten.1 h6
    obtain ⟨s, hs, rfl⟩ := List.mem_map.1 hld
    exact hcod s hs hcl
  · exact absurd h7 (by decide)

set_option maxRecDepth 8192 in
theorem claim_c8_witness :
    (∀ t ∈ (["\uFEFFusing A;\nclass B\n"] : List String), '\uFEFF' ∉ stripBOM t.data)
      ∧ ((∀ l ∈ (collect (["\uFEFFusing A;\nclass B\n"].map readFileLines)).usings,
            '\uFEFF' ∉ l.data)
        ∧ (∀ l ∈ (collect (["\uFEFFusing A;\nclass B\n"].map readFileLines)).codes,
            '\uFEFF' ∉ l.data)
        ∧ '\uFEFF' ∉ (outputOfTexts ["\uFEFFusing A;\nclass B\n"]).data) :=
  ⟨by decide, claim_c8 _ (by decide)⟩

theorem getLast?_append_right {α : Type} (x y : List α) (c : α)
    (h : y.getLast? = some c) : (x ++ y).getLast? = some c := by
  rw [List.getLast?_append, h]
  rfl

/-- The chunks that `main` writes to the output file, in write order: the
license print, each sorted import written verbatim, the blank-line print,
the two wrapper-open prints, each collected body line written verbatim,
and the wrapper-close print (amalgamate.py lines 28-53). -/
def emittedChunks (files : List (List String)) : List String :=
  printLine licenseLiteral
    :: (emittedImports files
      ++ printLine ""
        :: printLine "namespace DocoptNet"
        :: printLine "\x7b"
        :: ((collect files).codes ++ [printLine "\x7d"]))

/-- Claim C10: collected lines are emitted byte-verbatim with no line
terminator added.  First conjunct: the output text is exactly the
concatenation of the emitted chunks, with nothing inserted between them.
Second conjunct: whenever an unterminated chunk is directly followed in
the emitted sequence by a complete line, and the text written before it
ends at a line boundary, the unterminated chunk and its successor share
one output line.  Every adjacent chunk pair is covered, in particular an
unterminated import followed by the next sorted import, an unterminated
final body line of a file followed by the first body line of the next
file, and the last body line followed by the wrapper-close print. -/
theorem claim_c10 (files : List (List String)) :
    output files = writeAll (emittedChunks files)
      ∧ ∀ pre u v suf,
          emittedChunks files = pre ++ u :: v :: suf →
          (writeAll pre).data.getLast? = some '\n' →
          u.data ≠ [] → '\n' ∉ u.data → TermLine v →
          outputLines files
            = splitLines (writeAll pre).data
              ++ (u.data ++ v.data) :: splitLines (writeAll suf).data := by
  have ha : output files = writeAll (emittedChunks files) := by
    apply string_eq_of_data
    rw [output_data, writeAll_data]
    unfold emittedChunks
    simp [List.map_append, List.flatten_append, List.append_assoc]
  refine ⟨ha, ?_⟩
  intro pre u v suf heq hP _hne hnl htv
  have hdata : (output files).data = ((emittedChunks files).map String.data).flatten := by
    rw [ha, writeAll_data]
  rw [heq] at hdata
  have hflat : ((pre ++ u :: v :: suf).map String.data).flatten
      = (writeAll pre).data ++ (u.data ++ (v.data ++ (writeAll suf).data)) := by
    simp [List.map_append, List.flatten_append, writeAll_data, List.append_assoc]
  have hvne : v.data ≠ [] := TermLineData.ne_nil htv
  have hUV2 : (u.data ++ v.data).getLast? = some '\n' :=
    getLast?_append_right _ _ _ htv.2
  have hUV1 : '\n' ∉ (u.data ++ v.data).dropLast := by
    rw [List.dropLast_append_of_ne_nil u.data hvne]
    intro hmem
    rcases List.mem_append.1 hmem with hmem1 | hmem1
    · exact hnl hmem1
    · exact htv.1 hmem1
  unfold outputLines
  rw [hdata, hflat]
  rw [splitLines_append _ _ hP]
  rw [← List.append_assoc]
  rw [splitLines_append _ _ hUV2]
  rw [splitLines_single_term _ hUV1 hUV2]
  simp

set_option maxRecDepth 8192 in
theorem claim_c10_witness :
    (emittedChunks [["class A \x7b\x7d"], ["class B;\n"]]
        = [printLine licenseLiteral, printLine "", printLine "namespace DocoptNet",
            printLine "\x7b"]
          ++ "class A \x7b\x7d" :: "class B;\n" :: [printLine "\x7d"])
      ∧ (writeAll [printLine licenseLiteral, printLine "", printLine "namespace DocoptNet",
            printLine "\x7b"]).data.getLast? = some '\n'
      ∧ ("class A \x7b\x7d" : String).data ≠ []
      ∧ '\n' ∉ ("class A \x7b\x7d" : String).data
      ∧ TermLine ("class B;\n" : String)
      ∧ output [["class A \x7b\x7d"], ["class B;\n"]]
          = writeAll (emittedChunks [["class A \x7b\x7d"], ["class B;\n"]])
      ∧ outputLines [["class A \x7b\x7d"], ["class B;\n"]]
          = splitLines (writeAll [printLine licenseLiteral, printLine "",
              printLine "namespace DocoptNet", printLine "\x7b"]).data
            ++ (("class A \x7b\x7d" : String).data ++ ("class B;\n" : String).data)
              :: splitLines (writeAll [printLine "\x7d"]).data :=
  ⟨by decide, by decide, by decide, by decide, by decide,
    (claim_c10 _).1,
    (claim_c10 _).2 _ _ _ _ (by decide) (by decide) (by decide) (by decide) (by decide)⟩

end Amalgamate
